import Mathlib

/-!
Verification of the ripple-carry binary adder core: numeric types, the
bit-by-bit adder simulation and the event timeline, embedded from the
Python sources (src/types.py, src/binary_adder.py, src/simulation.py).
-/

namespace AdderSpec

/-- Description of a hardware-like integer type (src/types.py, NumericType). -/
structure NumericType where
  name : String
  bits : Option Nat
  signed : Bool
deriving DecidableEq, Repr

/-- Minimum representable integer (NumericType.min_value). -/
def NumericType.min_value (t : NumericType) : Int :=
  match t.bits with
  | none => -(2 ^ 63)
  | some b => if t.signed then -(2 ^ (b - 1)) else 0

/-- Maximum representable integer (NumericType.max_value). -/
def NumericType.max_value (t : NumericType) : Int :=
  match t.bits with
  | none => 2 ^ 63 - 1
  | some b => if t.signed then 2 ^ (b - 1) - 1 else 2 ^ b - 1

/-- Inclusive (min, max) range (NumericType.range). -/
def NumericType.range (t : NumericType) : Int × Int := (t.min_value, t.max_value)

/-- Normalize a value into the range of this type using twos complement rules
    (NumericType.normalize): reduce modulo 2^bits, then reinterpret the top bit
    as a sign when the type is signed. -/
def NumericType.normalize (t : NumericType) (value : Int) : Int :=
  match t.bits with
  | none => value
  | some b =>
    let v : Int := value % (2 ^ b : Int)
    if t.signed ∧ v.toNat &&& (1 <<< (b - 1)) ≠ 0 then v - 2 ^ b else v

/-- Fuel-driven core of bit_length; the fuel only bounds the recursion depth. -/
def bitLengthAux : Nat → Nat → Nat
  | 0, _ => 0
  | fuel + 1, n => if n = 0 then 0 else bitLengthAux fuel (n / 2) + 1

/-- Number of binary digits of n, mirroring the bit_length method of Python
    integers used by bit_length_for_values. -/
def bit_length (n : Nat) : Nat := bitLengthAux n n

/-- Bit length needed to display all provided values
    (NumericType.bit_length_for_values): the declared width for fixed types,
    and for the unbounded type the bit length of the largest magnitude plus one
    extra sign/carry visualization bit, at least 1. -/
def NumericType.bit_length_for_values (t : NumericType) (values : List Int) : Nat :=
  match t.bits with
  | some b => b
  | none =>
    let max_abs := (values.map Int.natAbs).foldl max 0
    max (bit_length max_abs + 1) 1

/-- The static registry built by _make_types, flattened to key/value pairs in
    insertion order (each alias maps to the same NumericType value). -/
def NUMERIC_TYPES : List (String × NumericType) := [
  ("int", ⟨"int", none, true⟩),
  ("python-int", ⟨"int", none, true⟩),
  ("int8_t", ⟨"int8_t", some 8, true⟩),
  ("int8", ⟨"int8_t", some 8, true⟩),
  ("int16_t", ⟨"int16_t", some 16, true⟩),
  ("int16", ⟨"int16_t", some 16, true⟩),
  ("int32_t", ⟨"int32_t", some 32, true⟩),
  ("int32", ⟨"int32_t", some 32, true⟩),
  ("int64_t", ⟨"int64_t", some 64, true⟩),
  ("int64", ⟨"int64_t", some 64, true⟩),
  ("uint8_t", ⟨"uint8_t", some 8, false⟩),
  ("uint8", ⟨"uint8_t", some 8, false⟩),
  ("uint16_t", ⟨"uint16_t", some 16, false⟩),
  ("uint16", ⟨"uint16_t", some 16, false⟩),
  ("uint32_t", ⟨"uint32_t", some 32, false⟩),
  ("uint32", ⟨"uint32_t", some 32, false⟩),
  ("uint64_t", ⟨"uint64_t", some 64, false⟩),
  ("uint64", ⟨"uint64_t", some 64, false⟩),
  ("size_t", ⟨"size_t", some 64, false⟩),
  ("uint", ⟨"uint", some 32, false⟩),
  ("long", ⟨"long", some 64, true⟩),
  ("unsigned long", ⟨"unsigned long", some 64, false⟩),
  ("ulong", ⟨"unsigned long", some 64, false⟩)]

/-- Convenient names for registry entries used in concrete statements. -/
def uint8_t : NumericType := ⟨"uint8_t", some 8, false⟩

/-- The signed 8-bit registry entry. -/
def int8_t : NumericType := ⟨"int8_t", some 8, true⟩

/-- The unbounded registry entry. -/
def int_unbounded : NumericType := ⟨"int", none, true⟩

/-- Remove leading and trailing whitespace (Python str.strip on the lookup key). -/
def pyStrip (s : String) : String :=
  ⟨((s.data.dropWhile Char.isWhitespace).reverse.dropWhile Char.isWhitespace).reverse⟩

/-- Lowercase each character (Python str.lower on the lookup key). -/
def pyLower (s : String) : String := ⟨s.data.map Char.toLower⟩

/-- Insert a string into an ascending list, keeping it sorted. -/
def insertSorted (s : String) : List String → List String
  | [] => [s]
  | x :: xs => if s < x then s :: x :: xs else x :: insertSorted s xs

/-- Ascending sort of strings, mirroring Python sorted() over the registry keys. -/
def pySorted (l : List String) : List String := l.foldr insertSorted []

/-- Lookup a type by name (get_numeric_type).  The error payload carries the
    sorted list of known names that the raised message enumerates after the
    text "Known types:". -/
def get_numeric_type (name : String) : Except (List String) NumericType :=
  let normalized := pyLower (pyStrip name)
  match NUMERIC_TYPES.lookup normalized with
  | some t => Except.ok t
  | none => Except.error (pySorted (NUMERIC_TYPES.map Prod.fst))

/-- State of a logic gate during a single tick (binary_adder.GateState);
    the input dict becomes an association list in insertion order. -/
structure GateState where
  name : String
  gate_type : String
  inputs : List (String × Nat)
  output : Nat
deriving DecidableEq, Repr

/-- Single step of the ripple-carry adder (binary_adder.AdderStep). -/
structure AdderStep where
  bit_index : Nat
  carry_in : Nat
  gate_states : List GateState
  sum_bit : Nat
  carry_out : Nat
deriving DecidableEq, Repr

/-- Outcome of an addition including visualization metadata
    (binary_adder.AdditionResult). -/
structure AdditionResult where
  numeric_type : NumericType
  lhs : Int
  rhs : Int
  result : Int
  overflow : Bool
  steps : List AdderStep
  result_bits : List Nat
  final_carry : Nat
deriving DecidableEq, Repr

/-- Convert an integer into LSB-first bits with twos complement semantics
    (binary_adder._int_to_bits). -/
def int_to_bits (value : Int) (bits : Nat) (signed : Bool) : List Nat :=
  if bits = 0 then [0]
  else
    let v1 : Int := if signed ∧ value < 0 then (2 ^ bits : Int) + value else value
    let v2 : Nat := (v1 % (2 ^ bits : Int)).toNat
    (List.range bits).map (fun i => (v2 >>> i) &&& 1)

/-- Convert LSB-first bits back into an integer with twos complement semantics
    (binary_adder._bits_to_int). -/
def bits_to_int (bs : List Nat) (signed : Bool) : Int :=
  let value : Nat :=
    bs.enum.foldl (fun acc p => if p.2 ≠ 0 then acc ||| (1 <<< p.1) else acc) 0
  if signed ∧ bs ≠ [] ∧ bs.getLast? = some 1 then (value : Int) - 2 ^ bs.length
  else (value : Int)

/-- One full-adder bit slice: the five recorded gates plus the resulting sum and
    carry bits (loop body of simulate_addition). -/
def fullAdderStep (idx a_bit b_bit carry : Nat) : AdderStep :=
  let xor_ab := a_bit ^^^ b_bit
  let sum_bit := xor_ab ^^^ carry
  let and_ab := a_bit &&& b_bit
  let and_xor_carry := xor_ab &&& carry
  let carry_out := and_ab ||| and_xor_carry
  { bit_index := idx
    carry_in := carry
    gate_states := [
      { name := "A" ++ toString idx ++ "_XOR_B" ++ toString idx, gate_type := "XOR",
        inputs := [("A", a_bit), ("B", b_bit)], output := xor_ab },
      { name := "SUM" ++ toString idx, gate_type := "XOR",
        inputs := [("XOR", xor_ab), ("CarryIn", carry)], output := sum_bit },
      { name := "CARRY_GEN" ++ toString idx, gate_type := "AND",
        inputs := [("A", a_bit), ("B", b_bit)], output := and_ab },
      { name := "CARRY_PROP" ++ toString idx, gate_type := "AND",
        inputs := [("A_xor_B", xor_ab), ("CarryIn", carry)], output := and_xor_carry },
      { name := "CARRY_OUT" ++ toString idx, gate_type := "OR",
        inputs := [("Gen", and_ab), ("Prop", and_xor_carry)], output := carry_out } ]
    sum_bit := sum_bit
    carry_out := carry_out }

/-- Ripple across the remaining bit positions starting at idx with the given
    carry (main loop of simulate_addition); returns the recorded steps and the
    value of the carry variable after the loop. -/
def rippleFrom (lhs_bits rhs_bits : List Nat) : Nat → Nat → Nat → List AdderStep × Nat
  | _, carry, 0 => ([], carry)
  | idx, carry, n + 1 =>
    let a_bit := lhs_bits.getD idx 0
    let b_bit := rhs_bits.getD idx 0
    let step := fullAdderStep idx a_bit b_bit carry
    let rest := rippleFrom lhs_bits rhs_bits (idx + 1) step.carry_out n
    (step :: rest.1, rest.2)

/-- Bit width and normalized operands chosen by simulate_addition before
    encoding: fixed types use their declared width and normalize the operands,
    the unbounded type computes a dynamic width and keeps the raw operands. -/
def operandSetup (lhs rhs : Int) (t : NumericType) : Nat × Int × Int :=
  match t.bits with
  | none => (max (t.bit_length_for_values [lhs, rhs, lhs + rhs]) 1, lhs, rhs)
  | some b => (b, t.normalize lhs, t.normalize rhs)

/-- The bit width used for the computation. -/
def simWidth (lhs rhs : Int) (t : NumericType) : Nat := (operandSetup lhs rhs t).1

/-- The encoded little-endian bits of the left operand. -/
def simLhsBits (lhs rhs : Int) (t : NumericType) : List Nat :=
  int_to_bits (operandSetup lhs rhs t).2.1 (simWidth lhs rhs t) t.signed

/-- The encoded little-endian bits of the right operand. -/
def simRhsBits (lhs rhs : Int) (t : NumericType) : List Nat :=
  int_to_bits (operandSetup lhs rhs t).2.2 (simWidth lhs rhs t) t.signed

/-- The recorded steps and final carry of the ripple loop. -/
def simRipple (lhs rhs : Int) (t : NumericType) : List AdderStep × Nat :=
  rippleFrom (simLhsBits lhs rhs t) (simRhsBits lhs rhs t) 0 0 (simWidth lhs rhs t)

/-- Simulate a ripple-carry adder and collect visualization steps
    (binary_adder.simulate_addition); failures carry the raised message. -/
def simulate_addition (lhs rhs : Int) (numeric_type : NumericType) :
    Except String AdditionResult :=
  if numeric_type.bits ≠ none ∧
      ¬(numeric_type.min_value ≤ lhs ∧ lhs ≤ numeric_type.max_value) then
    Except.error ("Left operand " ++ toString lhs ++ " does not fit into " ++
      numeric_type.name ++ ".")
  else if numeric_type.bits ≠ none ∧
      ¬(numeric_type.min_value ≤ rhs ∧ rhs ≤ numeric_type.max_value) then
    Except.error ("Right operand " ++ toString rhs ++ " does not fit into " ++
      numeric_type.name ++ ".")
  else
    let ripple := simRipple lhs rhs numeric_type
    let steps := ripple.1
    let final_carry := ripple.2
    let sum_bits := steps.map AdderStep.sum_bit
    let raw_sum := lhs + rhs
    match numeric_type.bits with
    | none =>
      Except.ok {
        numeric_type := numeric_type, lhs := lhs, rhs := rhs,
        result := raw_sum, overflow := false, steps := steps,
        result_bits := if final_carry ≠ 0 then sum_bits ++ [final_carry] else sum_bits,
        final_carry := final_carry }
    | some b =>
      let normalized_sum := numeric_type.normalize raw_sum
      let encoded : Nat := (normalized_sum % (2 ^ b : Int)).toNat
      let result_bits := int_to_bits (encoded : Int) b false
      let range_overflow : Bool :=
        decide (¬(numeric_type.min_value ≤ raw_sum ∧ raw_sum ≤ numeric_type.max_value))
      let carry_overflow : Bool :=
        if numeric_type.signed then false else decide (final_carry ≠ 0)
      let signed_overflow : Bool :=
        if numeric_type.signed then
          match steps.getLast? with
          | some s => decide (s.carry_in ^^^ s.carry_out ≠ 0)
          | none => false
        else false
      Except.ok {
        numeric_type := numeric_type, lhs := lhs, rhs := rhs,
        result := normalized_sum,
        overflow := range_overflow || carry_overflow || signed_overflow,
        steps := steps, result_bits := result_bits, final_carry := final_carry }

/-- Single event in the visualization timeline (simulation.TimelineEvent). -/
structure TimelineEvent where
  tick : Nat
  bit_index : Nat
  gate_state : GateState
  step : Option AdderStep
deriving DecidableEq, Repr

/-- Events for the gates of one step, ticks counting up from tick0
    (inner loop of SimulationTimeline.__init__). -/
def gateEventsFrom (step : AdderStep) : List GateState → Nat → List TimelineEvent
  | [], _ => []
  | g :: rest, tick =>
    { tick := tick, bit_index := step.bit_index, gate_state := g, step := some step } ::
      gateEventsFrom step rest (tick + 1)

/-- Events for all steps in order (outer loop of SimulationTimeline.__init__). -/
def stepsEventsFrom : List AdderStep → Nat → List TimelineEvent
  | [], _ => []
  | s :: rest, tick =>
    gateEventsFrom s s.gate_states tick ++ stepsEventsFrom rest (tick + s.gate_states.length)

/-- The materialized event list of SimulationTimeline.__init__: all gate events
    in order, then one synthetic FINAL_CARRY event when the final carry is set. -/
def buildTimeline (addition : AdditionResult) : List TimelineEvent :=
  let events := stepsEventsFrom addition.steps 0
  if addition.final_carry ≠ 0 then
    let msb_index := match addition.steps.getLast? with
      | some s => s.bit_index
      | none => 0
    events ++ [{
      tick := events.length,
      bit_index := msb_index,
      gate_state := { name := "FINAL_CARRY", gate_type := "OUTPUT",
                      inputs := [("CarryOut", addition.final_carry)],
                      output := addition.final_carry },
      step := addition.steps.getLast? }]
  else events

/-- Spec-side view: the LSB-first binary digits of v on n positions. -/
def natBits (v n : Nat) : List Nat := (List.range n).map (fun i => v / 2 ^ i % 2)

/-- Spec-side view: numeric value of an LSB-first bit list. -/
def lval : List Nat → Nat
  | [] => 0
  | b :: rest => b + 2 * lval rest

/-- Value of the n bits of a list starting at position idx. -/
def lvalFrom (as : List Nat) : Nat → Nat → Nat
  | _, 0 => 0
  | idx, n + 1 => as.getD idx 0 + 2 * lvalFrom as (idx + 1) n

/-- Whether the second list is an initial segment of the first. -/
def listStartsWith : List Char → List Char → Bool
  | _, [] => true
  | [], _ :: _ => false
  | c :: cs, p :: ps => c == p && listStartsWith cs ps

/-- Whether pat occurs contiguously inside hay. -/
def containsSub : List Char → List Char → Bool
  | [], pat => pat.isEmpty
  | c :: cs, pat => listStartsWith (c :: cs) pat || containsSub cs pat

/-! ### Arithmetic facts about bits, bit lists and modular reduction -/

theorem lor_two_pow_of_lt {acc i : Nat} (h : acc < 2 ^ i) :
    acc ||| 2 ^ i = acc + 2 ^ i := by
  apply Nat.eq_of_testBit_eq
  intro j
  rcases Nat.lt_trichotomy j i with hj | hj | hj
  · rw [Nat.testBit_lor, Nat.testBit_two_pow_of_ne (by omega),
      Nat.add_comm acc (2 ^ i), Nat.testBit_two_pow_add_gt hj]
    simp
  · subst hj
    rw [Nat.testBit_lor, Nat.testBit_two_pow_self,
      Nat.add_comm acc (2 ^ j), Nat.testBit_two_pow_add_eq,
      Nat.testBit_lt_two_pow h]
    simp
  · have hpow : (2 : Nat) ^ (i + 1) ≤ 2 ^ j := Nat.pow_le_pow_right (by omega) (by omega)
    have hpow1 : (2 : Nat) ^ (i + 1) = 2 ^ i * 2 := Nat.pow_succ ..
    have ha : acc < 2 ^ j := lt_of_lt_of_le h (Nat.pow_le_pow_right (by omega) (by omega))
    rw [Nat.testBit_lor, Nat.testBit_two_pow_of_ne (by omega),
      Nat.testBit_lt_two_pow ha, Nat.testBit_lt_two_pow (by omega)]
    simp

theorem lval_lt_two_pow : ∀ {bs : List Nat}, (∀ x ∈ bs, x ≤ 1) →
    lval bs < 2 ^ bs.length := by
  intro bs
  induction bs with
  | nil => intro _; simp [lval]
  | cons b rest ih =>
    intro h
    have hb : b ≤ 1 := h b (by simp)
    have hrest := ih (fun x hx => h x (by simp [hx]))
    have hpow : (2 : Nat) ^ (rest.length + 1) = 2 ^ rest.length * 2 := Nat.pow_succ ..
    simp only [lval, List.length_cons]
    omega

theorem mod_two_pow_succ_decomp (x m : Nat) :
    x % 2 ^ (m + 1) = x % 2 + 2 * (x / 2 % 2 ^ m) := by
  have hpow : (2 : Nat) ^ (m + 1) = 2 * 2 ^ m := by
    rw [Nat.pow_succ]; ring
  have h1 : 2 * (x / 2) % (2 * 2 ^ m) = 2 * (x / 2 % 2 ^ m) :=
    Nat.mul_mod_mul_left 2 (x / 2) (2 ^ m)
  have h2 : x % 2 < 2 := Nat.mod_lt _ (by omega)
  have h3 : x / 2 % 2 ^ m < 2 ^ m := Nat.mod_lt _ (Nat.two_pow_pos m)
  have h4 : 0 < (2 : Nat) ^ m := Nat.two_pow_pos m
  have h5 : x % 2 % (2 * 2 ^ m) = x % 2 := Nat.mod_eq_of_lt (by omega)
  calc x % 2 ^ (m + 1)
      = (2 * (x / 2) + x % 2) % (2 * 2 ^ m) := by rw [Nat.div_add_mod, hpow]
    _ = (2 * (x / 2) % (2 * 2 ^ m) + x % 2 % (2 * 2 ^ m)) % (2 * 2 ^ m) := by
        rw [Nat.add_mod]
    _ = (2 * (x / 2 % 2 ^ m) + x % 2) % (2 * 2 ^ m) := by
        rw [h1, h5]
    _ = 2 * (x / 2 % 2 ^ m) + x % 2 := Nat.mod_eq_of_lt (by omega)
    _ = x % 2 + 2 * (x / 2 % 2 ^ m) := by omega

theorem natBits_succ (v n : Nat) : natBits v (n + 1) = v % 2 :: natBits (v / 2) n := by
  unfold natBits
  rw [List.range_succ_eq_map, List.map_cons, List.map_map]
  congr 1
  · simp
  · apply List.map_congr_left
    intro i _
    simp only [Function.comp_apply, Nat.succ_eq_add_one]
    rw [Nat.pow_succ, Nat.mul_comm (2 ^ i) 2, ← Nat.div_div_eq_div_mul]

theorem natBits_length (v n : Nat) : (natBits v n).length = n := by
  simp [natBits]

theorem natBits_le_one (v n : Nat) : ∀ x ∈ natBits v n, x ≤ 1 := by
  intro x hx
  obtain ⟨i, _, rfl⟩ := List.mem_map.mp hx
  omega

theorem lval_natBits (v n : Nat) : lval (natBits v n) = v % 2 ^ n := by
  induction n generalizing v with
  | zero => simp [natBits, lval, Nat.mod_one]
  | succ m ih =>
    rw [natBits_succ, mod_two_pow_succ_decomp]
    simp [lval, ih]

theorem eq_natBits_of_le_one : ∀ {bs : List Nat}, (∀ x ∈ bs, x ≤ 1) →
    bs = natBits (lval bs) bs.length := by
  intro bs
  induction bs with
  | nil => intro _; rfl
  | cons b rest ih =>
    intro h
    have hb : b ≤ 1 := h b (by simp)
    have hrest := ih (fun x hx => h x (by simp [hx]))
    have hmod : lval (b :: rest) % 2 = b := by
      simp only [lval]
      rw [Nat.add_mul_mod_self_left, Nat.mod_eq_of_lt (by omega)]
    have hdiv : lval (b :: rest) / 2 = lval rest := by
      simp only [lval]
      rw [Nat.add_mul_div_left _ _ (by omega), Nat.div_eq_of_lt (by omega)]
      omega
    rw [List.length_cons, natBits_succ, hmod, hdiv]
    exact congrArg _ hrest

theorem natBits_getD {v n i : Nat} (h : i < n) :
    (natBits v n).getD i 0 = v / 2 ^ i % 2 := by
  rw [List.getD_eq_getElem _ _ (by simpa [natBits_length])]
  simp [natBits]

theorem natBits_getD_le (v n i : Nat) : (natBits v n).getD i 0 ≤ 1 := by
  by_cases h : i < n
  · rw [natBits_getD h]; omega
  · rw [List.getD_eq_default _ _ (by simp [natBits_length]; omega)]; omega

theorem natBits_getLast? (v : Nat) {n : Nat} (h : 0 < n) :
    (natBits v n).getLast? = some (v / 2 ^ (n - 1) % 2) := by
  obtain ⟨m, rfl⟩ : ∃ m, n = m + 1 := ⟨n - 1, by omega⟩
  unfold natBits
  rw [List.range_succ, List.map_append]
  simp [List.getLast?_concat]

theorem natBits_mod_eq (v n : Nat) : natBits (v % 2 ^ n) n = natBits v n := by
  induction n generalizing v with
  | zero => rfl
  | succ m ih =>
    rw [natBits_succ, natBits_succ]
    have hm : v % 2 ^ (m + 1) % 2 = v % 2 := by
      rw [Nat.mod_mod_of_dvd _ (dvd_pow_self 2 (by omega))]
    have hd : v % 2 ^ (m + 1) / 2 = v / 2 % 2 ^ m := by
      rw [mod_two_pow_succ_decomp, Nat.add_comm, Nat.mul_add_div (by omega)]
      have : v % 2 < 2 := Nat.mod_lt _ (by omega)
      rw [Nat.div_eq_of_lt this]
      exact Nat.add_zero _
    rw [hm, hd, ih]

theorem testBit_msb {x n : Nat} (hn : 0 < n) (hx : x < 2 ^ n) :
    x.testBit (n - 1) = decide (2 ^ (n - 1) ≤ x) := by
  have hpow : (2 : Nat) ^ (n - 1) * 2 = 2 ^ n := by
    rw [← Nat.pow_succ]
    congr 1
    omega
  have h2 : x / 2 ^ (n - 1) < 2 :=
    (Nat.div_lt_iff_lt_mul (Nat.two_pow_pos (n - 1))).mpr (by omega)
  have h1 : 1 ≤ x / 2 ^ (n - 1) ↔ 2 ^ (n - 1) ≤ x :=
    Nat.one_le_div_iff (Nat.two_pow_pos (n - 1))
  rw [Nat.testBit_to_div_mod, Nat.mod_eq_of_lt h2]
  by_cases hle : 2 ^ (n - 1) ≤ x
  · have hge : 1 ≤ x / 2 ^ (n - 1) := h1.mpr hle
    have hone : x / 2 ^ (n - 1) = 1 :=
      Nat.le_antisymm (Nat.lt_succ_iff.mp h2) hge
    rw [hone]
    simp [hle]
  · have hlt : x / 2 ^ (n - 1) < 1 := by
      rcases Nat.lt_or_ge (x / 2 ^ (n - 1)) 1 with h | h
      · exact h
      · exact absurd (h1.mp h) hle
    rw [Nat.lt_one_iff.mp hlt]
    simp [hle]

theorem emod_two_pow_nonneg (v : Int) (n : Nat) : 0 ≤ v % (2 ^ n : Int) :=
  Int.emod_nonneg v (by positivity)

theorem emod_two_pow_lt (v : Int) (n : Nat) : v % (2 ^ n : Int) < 2 ^ n :=
  Int.emod_lt_of_pos v (by positivity)

theorem toNat_emod_two_pow_lt (v : Int) (n : Nat) :
    (v % (2 ^ n : Int)).toNat < 2 ^ n := by
  have h1 := emod_two_pow_nonneg v n
  have h2 := emod_two_pow_lt v n
  have h3 := Int.toNat_of_nonneg h1
  have hc : ((2 ^ n : Nat) : Int) = (2 ^ n : Int) := by push_cast; ring
  omega

theorem toNat_emod_cast (v : Int) (n : Nat) :
    (((v % (2 ^ n : Int)).toNat : Int)) = v % (2 ^ n : Int) :=
  Int.toNat_of_nonneg (emod_two_pow_nonneg v n)

/-! ### Characterizations of the encoder, the decoder and normalization -/

theorem enumFrom_lor_foldl (bs : List Nat) : ∀ (i acc : Nat), acc < 2 ^ i →
    (∀ x ∈ bs, x ≤ 1) →
    (List.enumFrom i bs).foldl
        (fun acc p => if p.2 ≠ 0 then acc ||| (1 <<< p.1) else acc) acc
      = acc + 2 ^ i * lval bs := by
  induction bs with
  | nil => intro i acc _ _; simp [lval]
  | cons b rest ih =>
    intro i acc hacc hle
    have hb : b ≤ 1 := hle b (by simp)
    have hrest : ∀ x ∈ rest, x ≤ 1 := fun x hx => hle x (by simp [hx])
    have hpow : (2 : Nat) ^ (i + 1) = 2 ^ i * 2 := Nat.pow_succ ..
    have hcons : List.enumFrom i (b :: rest) = (i, b) :: List.enumFrom (i + 1) rest := rfl
    rw [hcons, List.foldl_cons]
    rcases Nat.le_one_iff_eq_zero_or_eq_one.mp hb with h0 | h1
    · subst h0
      show List.foldl (fun acc p => if p.2 ≠ 0 then acc ||| (1 <<< p.1) else acc) acc
          (List.enumFrom (i + 1) rest) = acc + 2 ^ i * lval (0 :: rest)
      rw [ih (i + 1) acc (by omega) hrest]
      simp only [lval]
      rw [hpow]
      ring
    · subst h1
      show List.foldl (fun acc p => if p.2 ≠ 0 then acc ||| (1 <<< p.1) else acc)
          (acc ||| (1 <<< i)) (List.enumFrom (i + 1) rest) = acc + 2 ^ i * lval (1 :: rest)
      rw [Nat.one_shiftLeft, lor_two_pow_of_lt hacc,
        ih (i + 1) (acc + 2 ^ i) (by omega) hrest]
      simp only [lval]
      rw [hpow]
      ring

theorem bits_to_int_eq (bs : List Nat) (signed : Bool) (h : ∀ x ∈ bs, x ≤ 1) :
    bits_to_int bs signed =
      if signed ∧ bs ≠ [] ∧ bs.getLast? = some 1 then
        (lval bs : Int) - 2 ^ bs.length
      else (lval bs : Int) := by
  have hv : bs.enum.foldl
      (fun acc p => if p.2 ≠ 0 then acc ||| (1 <<< p.1) else acc) 0 = lval bs := by
    have h0 := enumFrom_lor_foldl bs 0 0 (by simp) h
    simpa [List.enum] using h0
  simp only [bits_to_int, hv]

theorem int_to_bits_eq (v : Int) {n : Nat} (hn : 0 < n) (s : Bool) :
    int_to_bits v n s = natBits (v % (2 ^ n : Int)).toNat n := by
  unfold int_to_bits
  rw [if_neg (by omega)]
  have hmod : (if s ∧ v < 0 then (2 ^ n : Int) + v else v) % (2 ^ n : Int)
      = v % (2 ^ n : Int) := by
    split
    · rw [show (2 ^ n : Int) + v = v + 2 ^ n * 1 by ring, Int.add_mul_emod_self_left]
    · rfl
  simp only [hmod]
  unfold natBits
  apply List.map_congr_left
  intro i _
  rw [Nat.shiftRight_eq_div_pow, Nat.and_one_is_mod]

theorem normalize_some {t : NumericType} {n : Nat} (hb : t.bits = some n)
    (hn : 0 < n) (v : Int) :
    t.normalize v =
      if t.signed = true ∧ 2 ^ (n - 1) ≤ (v % (2 ^ n : Int)).toNat
      then v % (2 ^ n : Int) - 2 ^ n else v % (2 ^ n : Int) := by
  unfold NumericType.normalize
  rw [hb]
  have hcond : ((v % (2 ^ n : Int)).toNat &&& (1 <<< (n - 1)) ≠ 0)
      ↔ 2 ^ (n - 1) ≤ (v % (2 ^ n : Int)).toNat := by
    rw [Nat.one_shiftLeft, Nat.and_two_pow,
      testBit_msb hn (toNat_emod_two_pow_lt v n)]
    rcases Decidable.em (2 ^ (n - 1) ≤ (v % (2 ^ n : Int)).toNat) with hle | hle
    · rw [decide_eq_true hle]
      have h2 := Nat.two_pow_pos (n - 1)
      simp only [Bool.toNat_true, Nat.one_mul]
      exact ⟨fun _ => hle, fun _ => by omega⟩
    · rw [decide_eq_false hle]
      simp only [Bool.toNat_false, Nat.zero_mul]
      exact ⟨fun h => absurd rfl h, fun h => absurd h hle⟩
  simp only [hcond]

theorem normalize_emod {t : NumericType} {n : Nat} (hb : t.bits = some n) (v : Int) :
    t.normalize v % (2 ^ n : Int) = v % (2 ^ n : Int) := by
  unfold NumericType.normalize
  rw [hb]
  simp only []
  split
  · rw [Int.sub_emod, Int.emod_emod_of_dvd v dvd_rfl, Int.emod_self, sub_zero,
      Int.emod_emod_of_dvd v dvd_rfl]
  · exact Int.emod_emod_of_dvd v dvd_rfl

/-! ### Structural lemmas about the ripple loop -/

/-- The carry value entering bit slice idx + j when the loop starts at idx with
    carry c. -/
def carryChain (as bs : List Nat) (idx c : Nat) : Nat → Nat
  | 0 => c
  | j + 1 => (fullAdderStep (idx + j) (as.getD (idx + j) 0) (bs.getD (idx + j) 0)
      (carryChain as bs idx c j)).carry_out

theorem carryChain_shift (as bs : List Nat) (idx c : Nat) : ∀ j : Nat,
    carryChain as bs (idx + 1)
        ((fullAdderStep idx (as.getD idx 0) (bs.getD idx 0) c).carry_out) j
      = carryChain as bs idx c (j + 1) := by
  intro j
  induction j with
  | zero => rfl
  | succ k ih =>
    have harith : idx + 1 + k = idx + (k + 1) := by omega
    show (fullAdderStep (idx + 1 + k) _ _ _).carry_out = _
    rw [ih, harith]
    rfl

theorem rippleFrom_fst_length (as bs : List Nat) :
    ∀ (n idx c : Nat), ((rippleFrom as bs idx c n).1).length = n := by
  intro n
  induction n with
  | zero => intro idx c; rfl
  | succ m ih =>
    intro idx c
    simp only [rippleFrom, List.length_cons, ih]

theorem rippleFrom_get? (as bs : List Nat) :
    ∀ (n idx c j : Nat), j < n →
      ((rippleFrom as bs idx c n).1).get? j
        = some (fullAdderStep (idx + j) (as.getD (idx + j) 0) (bs.getD (idx + j) 0)
            (carryChain as bs idx c j)) := by
  intro n
  induction n with
  | zero => intro idx c j h; omega
  | succ m ih =>
    intro idx c j h
    match j with
    | 0 => rfl
    | j' + 1 =>
      have harith : idx + 1 + j' = idx + (j' + 1) := by omega
      show ((rippleFrom as bs (idx + 1)
          (fullAdderStep idx (as.getD idx 0) (bs.getD idx 0) c).carry_out m).1).get? j' = _
      rw [ih (idx + 1) _ j' (by omega), carryChain_shift, harith]

theorem rippleFrom_snd (as bs : List Nat) :
    ∀ (n idx c : Nat), (rippleFrom as bs idx c n).2 = carryChain as bs idx c n := by
  intro n
  induction n with
  | zero => intro idx c; rfl
  | succ m ih =>
    intro idx c
    show (rippleFrom as bs (idx + 1) _ m).2 = _
    rw [ih, carryChain_shift]

theorem rippleFrom_gates_length (as bs : List Nat) :
    ∀ (n idx c : Nat), ∀ s ∈ (rippleFrom as bs idx c n).1, s.gate_states.length = 5 := by
  intro n
  induction n with
  | zero => intro idx c s h; simp [rippleFrom] at h
  | succ m ih =>
    intro idx c s h
    rcases (List.mem_cons).mp h with h0 | h0
    · subst h0; rfl
    · exact ih _ _ s h0

theorem bit_add_decomp {a b c : Nat} (ha : a ≤ 1) (hb : b ≤ 1) (hc : c ≤ 1) :
    ((a ^^^ b) ^^^ c) + 2 * ((a &&& b) ||| ((a ^^^ b) &&& c)) = a + b + c
    ∧ ((a ^^^ b) ^^^ c) ≤ 1 ∧ ((a &&& b) ||| ((a ^^^ b) &&& c)) ≤ 1 := by
  interval_cases a <;> interval_cases b <;> interval_cases c <;> decide

theorem ripple_value (as bs : List Nat) (ha : ∀ i, as.getD i 0 ≤ 1)
    (hb : ∀ i, bs.getD i 0 ≤ 1) :
    ∀ (n idx c : Nat), c ≤ 1 →
      lval (((rippleFrom as bs idx c n).1).map AdderStep.sum_bit)
          + (rippleFrom as bs idx c n).2 * 2 ^ n
        = lvalFrom as idx n + lvalFrom bs idx n + c
      ∧ (rippleFrom as bs idx c n).2 ≤ 1
      ∧ ∀ s ∈ (rippleFrom as bs idx c n).1, s.sum_bit ≤ 1 := by
  intro n
  induction n with
  | zero =>
    intro idx c hc
    refine ⟨?_, hc, ?_⟩
    · simp [rippleFrom, lval, lvalFrom]
    · intro s h
      simp [rippleFrom] at h
  | succ m ih =>
    intro idx c hc
    have hbit := bit_add_decomp (ha idx) (hb idx) hc
    obtain ⟨hsum, hsle, hcle⟩ := hbit
    obtain ⟨ihval, ihc, ihs⟩ := ih (idx + 1)
      ((fullAdderStep idx (as.getD idx 0) (bs.getD idx 0) c).carry_out) hcle
    refine ⟨?_, ihc, ?_⟩
    · show lval ((fullAdderStep idx (as.getD idx 0) (bs.getD idx 0) c
          :: (rippleFrom as bs (idx + 1) _ m).1).map AdderStep.sum_bit)
          + (rippleFrom as bs (idx + 1) _ m).2 * 2 ^ (m + 1)
        = lvalFrom as idx (m + 1) + lvalFrom bs idx (m + 1) + c
      rw [List.map_cons]
      simp only [lval, lvalFrom]
      have hpow : (2 : Nat) ^ (m + 1) = 2 ^ m * 2 := Nat.pow_succ ..
      rw [hpow]
      calc (fullAdderStep idx (as.getD idx 0) (bs.getD idx 0) c).sum_bit
            + 2 * lval (((rippleFrom as bs (idx + 1) _ m).1).map AdderStep.sum_bit)
            + (rippleFrom as bs (idx + 1) _ m).2 * (2 ^ m * 2)
          = (fullAdderStep idx (as.getD idx 0) (bs.getD idx 0) c).sum_bit
            + 2 * (lval (((rippleFrom as bs (idx + 1) _ m).1).map AdderStep.sum_bit)
              + (rippleFrom as bs (idx + 1) _ m).2 * 2 ^ m) := by ring
        _ = (fullAdderStep idx (as.getD idx 0) (bs.getD idx 0) c).sum_bit
            + 2 * (lvalFrom as (idx + 1) m + lvalFrom bs (idx + 1) m
              + (fullAdderStep idx (as.getD idx 0) (bs.getD idx 0) c).carry_out) := by
            rw [ihval]
        _ = ((fullAdderStep idx (as.getD idx 0) (bs.getD idx 0) c).sum_bit
              + 2 * (fullAdderStep idx (as.getD idx 0) (bs.getD idx 0) c).carry_out)
            + 2 * lvalFrom as (idx + 1) m + 2 * lvalFrom bs (idx + 1) m := by ring
        _ = (as.getD idx 0 + bs.getD idx 0 + c)
            + 2 * lvalFrom as (idx + 1) m + 2 * lvalFrom bs (idx + 1) m := by
            rw [show (fullAdderStep idx (as.getD idx 0) (bs.getD idx 0) c).sum_bit
                = (as.getD idx 0 ^^^ bs.getD idx 0) ^^^ c from rfl,
              show (fullAdderStep idx (as.getD idx 0) (bs.getD idx 0) c).carry_out
                = (as.getD idx 0 &&& bs.getD idx 0)
                  ||| ((as.getD idx 0 ^^^ bs.getD idx 0) &&& c) from rfl,
              hsum]
        _ = (as.getD idx 0 + 2 * lvalFrom as (idx + 1) m)
            + (bs.getD idx 0 + 2 * lvalFrom bs (idx + 1) m) + c := by ring
    · intro s h
      rcases (List.mem_cons).mp h with h0 | h0
      · subst h0; exact hsle
      · exact ihs s h0

/-! ### Unfolding the simulator on its two branches -/

theorem operandSetup_fixed {t : NumericType} {n : Nat} (hb : t.bits = some n)
    (a b : Int) : operandSetup a b t = (n, t.normalize a, t.normalize b) := by
  simp [operandSetup, hb]

theorem operandSetup_unbounded {t : NumericType} (hb : t.bits = none) (a b : Int) :
    operandSetup a b t = (max (t.bit_length_for_values [a, b, a + b]) 1, a, b) := by
  simp [operandSetup, hb]

theorem simWidth_fixed {t : NumericType} {n : Nat} (hb : t.bits = some n)
    (a b : Int) : simWidth a b t = n := by
  simp [simWidth, operandSetup_fixed hb]

theorem simWidth_unbounded {t : NumericType} (hb : t.bits = none) (a b : Int) :
    simWidth a b t = max (t.bit_length_for_values [a, b, a + b]) 1 := by
  simp [simWidth, operandSetup_unbounded hb]

theorem simulate_fixed_eq {t : NumericType} {n : Nat} (hb : t.bits = some n)
    (a b : Int) (hla : t.min_value ≤ a ∧ a ≤ t.max_value)
    (hrb : t.min_value ≤ b ∧ b ≤ t.max_value) :
    simulate_addition a b t = Except.ok {
      numeric_type := t, lhs := a, rhs := b,
      result := t.normalize (a + b),
      overflow :=
        (decide (¬(t.min_value ≤ a + b ∧ a + b ≤ t.max_value))
          || (if t.signed then false else decide ((simRipple a b t).2 ≠ 0))
          || (if t.signed then
                match (simRipple a b t).1.getLast? with
                | some s => decide (s.carry_in ^^^ s.carry_out ≠ 0)
                | none => false
              else false)),
      steps := (simRipple a b t).1,
      result_bits := int_to_bits (((t.normalize (a + b)) % (2 ^ n : Int)).toNat : Int)
        n false,
      final_carry := (simRipple a b t).2 } := by
  unfold simulate_addition
  rw [if_neg (fun h => h.2 hla), if_neg (fun h => h.2 hrb)]
  simp only [hb]

theorem simulate_unbounded_eq {t : NumericType} (hb : t.bits = none) (a b : Int) :
    simulate_addition a b t = Except.ok {
      numeric_type := t, lhs := a, rhs := b,
      result := a + b, overflow := false,
      steps := (simRipple a b t).1,
      result_bits := if (simRipple a b t).2 ≠ 0
        then ((simRipple a b t).1.map AdderStep.sum_bit) ++ [(simRipple a b t).2]
        else ((simRipple a b t).1.map AdderStep.sum_bit),
      final_carry := (simRipple a b t).2 } := by
  unfold simulate_addition
  rw [if_neg (fun h => h.1 hb), if_neg (fun h => h.1 hb)]
  simp only [hb]

theorem simulate_ok_ranges {t : NumericType} {a b : Int} {r : AdditionResult}
    (h : simulate_addition a b t = Except.ok r) (hne : t.bits ≠ none) :
    (t.min_value ≤ a ∧ a ≤ t.max_value) ∧ (t.min_value ≤ b ∧ b ≤ t.max_value) := by
  by_cases hla : t.min_value ≤ a ∧ a ≤ t.max_value
  · by_cases hrb : t.min_value ≤ b ∧ b ≤ t.max_value
    · exact ⟨hla, hrb⟩
    · exfalso
      unfold simulate_addition at h
      rw [if_neg (fun hc => hc.2 hla), if_pos ⟨hne, hrb⟩] at h
      exact Except.noConfusion h
  · exfalso
    unfold simulate_addition at h
    rw [if_pos ⟨hne, hla⟩] at h
    exact Except.noConfusion h

/-! ### The ripple loop computes binary addition -/

theorem lvalFrom_natBits (v : Nat) : ∀ (m idx n : Nat), idx + m ≤ n →
    lvalFrom (natBits v n) idx m = v / 2 ^ idx % 2 ^ m := by
  intro m
  induction m with
  | zero => intro idx n h; simp [lvalFrom, Nat.mod_one]
  | succ k ih =>
    intro idx n h
    show (natBits v n).getD idx 0 + 2 * lvalFrom (natBits v n) (idx + 1) k = _
    rw [natBits_getD (by omega), ih (idx + 1) n (by omega),
      mod_two_pow_succ_decomp (v / 2 ^ idx) k, Nat.pow_succ,
      ← Nat.div_div_eq_div_mul]

theorem simLhsBits_fixed {t : NumericType} {n : Nat} (hb : t.bits = some n)
    (hn : 0 < n) (a b : Int) :
    simLhsBits a b t = natBits ((a % (2 ^ n : Int)).toNat) n := by
  unfold simLhsBits
  rw [operandSetup_fixed hb, simWidth_fixed hb]
  show int_to_bits (t.normalize a) n t.signed = _
  rw [int_to_bits_eq _ hn, normalize_emod hb]

theorem simRhsBits_fixed {t : NumericType} {n : Nat} (hb : t.bits = some n)
    (hn : 0 < n) (a b : Int) :
    simRhsBits a b t = natBits ((b % (2 ^ n : Int)).toNat) n := by
  unfold simRhsBits
  rw [operandSetup_fixed hb, simWidth_fixed hb]
  show int_to_bits (t.normalize b) n t.signed = _
  rw [int_to_bits_eq _ hn, normalize_emod hb]

theorem simRipple_fixed {t : NumericType} {n : Nat} (hb : t.bits = some n)
    (a b : Int) :
    simRipple a b t = rippleFrom (simLhsBits a b t) (simRhsBits a b t) 0 0 n := by
  unfold simRipple
  rw [simWidth_fixed hb]

/-- For a fixed width n, the per-step sum bits of the ripple loop are exactly
    the binary digits of (a + b) mod 2^n, and the final carry is a single bit. -/
theorem fixed_bits_spec {t : NumericType} {n : Nat} (hb : t.bits = some n)
    (hn : 0 < n) (a b : Int) :
    (simRipple a b t).1.map AdderStep.sum_bit
        = natBits (((a + b) % (2 ^ n : Int)).toNat) n
    ∧ (simRipple a b t).2 ≤ 1 := by
  have hA := simLhsBits_fixed hb hn a b
  have hB := simRhsBits_fixed hb hn a b
  have haL : ∀ i, (simLhsBits a b t).getD i 0 ≤ 1 := by
    rw [hA]; intro i; exact natBits_getD_le _ _ _
  have hbL : ∀ i, (simRhsBits a b t).getD i 0 ≤ 1 := by
    rw [hB]; intro i; exact natBits_getD_le _ _ _
  have hr := simRipple_fixed hb a b
  obtain ⟨hval, hfc, hsle⟩ :=
    ripple_value (simLhsBits a b t) (simRhsBits a b t) haL hbL n 0 0 (by omega)
  have hlA : lvalFrom (simLhsBits a b t) 0 n = (a % (2 ^ n : Int)).toNat := by
    rw [hA, lvalFrom_natBits _ n 0 n (by omega), Nat.pow_zero, Nat.div_one,
      Nat.mod_eq_of_lt (toNat_emod_two_pow_lt a n)]
  have hlB : lvalFrom (simRhsBits a b t) 0 n = (b % (2 ^ n : Int)).toNat := by
    rw [hB, lvalFrom_natBits _ n 0 n (by omega), Nat.pow_zero, Nat.div_one,
      Nat.mod_eq_of_lt (toNat_emod_two_pow_lt b n)]
  rw [hlA, hlB] at hval
  rw [← hr] at hval hfc hsle
  refine ⟨?_, hfc⟩
  have hlen : ((simRipple a b t).1.map AdderStep.sum_bit).length = n := by
    rw [hr, List.length_map, rippleFrom_fst_length]
  have hsle2 : ∀ x ∈ (simRipple a b t).1.map AdderStep.sum_bit, x ≤ 1 := by
    intro x hx
    obtain ⟨s, hs, rfl⟩ := List.mem_map.mp hx
    exact hsle s hs
  have hlt : lval ((simRipple a b t).1.map AdderStep.sum_bit) < 2 ^ n := by
    have h0 := lval_lt_two_pow hsle2
    rwa [hlen] at h0
  have heq : (a % (2 ^ n : Int)).toNat + (b % (2 ^ n : Int)).toNat
      = 2 ^ n * (simRipple a b t).2
        + lval ((simRipple a b t).1.map AdderStep.sum_bit) := by
    calc (a % (2 ^ n : Int)).toNat + (b % (2 ^ n : Int)).toNat
        = (a % (2 ^ n : Int)).toNat + (b % (2 ^ n : Int)).toNat + 0 := by ring
      _ = lval ((simRipple a b t).1.map AdderStep.sum_bit)
          + (simRipple a b t).2 * 2 ^ n := hval.symm
      _ = 2 ^ n * (simRipple a b t).2
          + lval ((simRipple a b t).1.map AdderStep.sum_bit) := by ring
  have hsum_mod : lval ((simRipple a b t).1.map AdderStep.sum_bit)
      = ((a % (2 ^ n : Int)).toNat + (b % (2 ^ n : Int)).toNat) % 2 ^ n := by
    rw [heq, Nat.mul_add_mod, Nat.mod_eq_of_lt hlt]
  have hcast : ((a % (2 ^ n : Int)).toNat + (b % (2 ^ n : Int)).toNat) % 2 ^ n
      = ((a + b) % (2 ^ n : Int)).toNat := by
    have hA2 : (((a % (2 ^ n : Int)).toNat : Nat) : Int) = a % (2 ^ n : Int) :=
      toNat_emod_cast a n
    have hB2 : (((b % (2 ^ n : Int)).toNat : Nat) : Int) = b % (2 ^ n : Int) :=
      toNat_emod_cast b n
    have hS2 : ((((a + b) % (2 ^ n : Int)).toNat : Nat) : Int)
        = (a + b) % (2 ^ n : Int) := toNat_emod_cast (a + b) n
    have hpowc : ((2 ^ n : Nat) : Int) = (2 ^ n : Int) := by push_cast; ring
    have key : ((((a % (2 ^ n : Int)).toNat + (b % (2 ^ n : Int)).toNat) % 2 ^ n
          : Nat) : Int)
        = ((((a + b) % (2 ^ n : Int)).toNat : Nat) : Int) := by
      rw [Int.natCast_mod, Nat.cast_add, hA2, hB2, hpowc, hS2, ← Int.add_emod]
    exact Int.natCast_inj.mp key
  calc (simRipple a b t).1.map AdderStep.sum_bit
      = natBits (lval ((simRipple a b t).1.map AdderStep.sum_bit))
          ((simRipple a b t).1.map AdderStep.sum_bit).length :=
        eq_natBits_of_le_one hsle2
    _ = natBits (((a % (2 ^ n : Int)).toNat + (b % (2 ^ n : Int)).toNat) % 2 ^ n)
          n := by rw [hsum_mod, hlen]
    _ = natBits (((a + b) % (2 ^ n : Int)).toNat) n := by rw [hcast]

/-! ### Timeline lemmas -/

theorem gateEventsFrom_length (s : AdderStep) :
    ∀ (gs : List GateState) (t0 : Nat),
      (gateEventsFrom s gs t0).length = gs.length := by
  intro gs
  induction gs with
  | nil => intro t0; rfl
  | cons g rest ih =>
    intro t0
    show (gateEventsFrom s rest (t0 + 1)).length + 1 = rest.length + 1
    rw [ih]

theorem stepsEventsFrom_length_five :
    ∀ (l : List AdderStep), (∀ s ∈ l, s.gate_states.length = 5) →
      ∀ t0 : Nat, (stepsEventsFrom l t0).length = 5 * l.length := by
  intro l
  induction l with
  | nil => intro _ t0; rfl
  | cons s rest ih =>
    intro h t0
    have h5 : s.gate_states.length = 5 := h s (by simp)
    have hrest := ih (fun x hx => h x (by simp [hx])) (t0 + s.gate_states.length)
    show (gateEventsFrom s s.gate_states t0
        ++ stepsEventsFrom rest (t0 + s.gate_states.length)).length
      = 5 * (rest.length + 1)
    rw [List.length_append, gateEventsFrom_length, hrest, h5]
    ring

theorem gateEventsFrom_tick? (s : AdderStep) :
    ∀ (gs : List GateState) (t0 j : Nat), j < gs.length →
      ((gateEventsFrom s gs t0).get? j).map TimelineEvent.tick = some (t0 + j) := by
  intro gs
  induction gs with
  | nil => intro t0 j h; simp at h
  | cons g rest ih =>
    intro t0 j h
    match j with
    | 0 => simp [gateEventsFrom]
    | j' + 1 =>
      show ((gateEventsFrom s rest (t0 + 1)).get? j').map TimelineEvent.tick = _
      rw [ih (t0 + 1) j' (by simpa using Nat.lt_of_succ_lt_succ h)]
      exact congrArg some (by omega)

theorem stepsEventsFrom_tick? :
    ∀ (l : List AdderStep) (t0 j : Nat), j < (stepsEventsFrom l t0).length →
      ((stepsEventsFrom l t0).get? j).map TimelineEvent.tick = some (t0 + j) := by
  intro l
  induction l with
  | nil => intro t0 j h; simp [stepsEventsFrom] at h
  | cons s rest ih =>
    intro t0 j h
    have hlen := gateEventsFrom_length s s.gate_states t0
    have happlen : (stepsEventsFrom (s :: rest) t0).length
        = (gateEventsFrom s s.gate_states t0).length
          + (stepsEventsFrom rest (t0 + s.gate_states.length)).length := by
      show (gateEventsFrom s s.gate_states t0
          ++ stepsEventsFrom rest (t0 + s.gate_states.length)).length = _
      rw [List.length_append]
    by_cases hj : j < s.gate_states.length
    · show ((gateEventsFrom s s.gate_states t0
          ++ stepsEventsFrom rest (t0 + s.gate_states.length)).get? j).map
          TimelineEvent.tick = _
      rw [List.get?_append (by rw [hlen]; exact hj)]
      exact gateEventsFrom_tick? s s.gate_states t0 j hj
    · show ((gateEventsFrom s s.gate_states t0
          ++ stepsEventsFrom rest (t0 + s.gate_states.length)).get? j).map
          TimelineEvent.tick = _
      rw [List.get?_append_right (by rw [hlen]; omega)]
      rw [hlen]
      have h2 : j - s.gate_states.length
          < (stepsEventsFrom rest (t0 + s.gate_states.length)).length := by
        rw [happlen, hlen] at h
        omega
      rw [ih (t0 + s.gate_states.length) (j - s.gate_states.length) h2]
      exact congrArg some (by omega)

/-! ### Facts about bit_length -/

theorem bitLengthAux_zero : ∀ f : Nat, bitLengthAux f 0 = 0 := by
  intro f
  cases f <;> rfl

theorem bitLengthAux_congr : ∀ (f1 f2 n : Nat), n ≤ f1 → n ≤ f2 →
    bitLengthAux f1 n = bitLengthAux f2 n := by
  intro f1
  induction f1 with
  | zero =>
    intro f2 n h1 _
    obtain rfl : n = 0 := by omega
    rw [bitLengthAux_zero, bitLengthAux_zero]
  | succ g ih =>
    intro f2 n h1 h2
    match n, f2 with
    | 0, f2 => rw [bitLengthAux_zero, bitLengthAux_zero]
    | n + 1, 0 => omega
    | n + 1, f2 + 1 =>
      show (if n + 1 = 0 then 0 else bitLengthAux g ((n + 1) / 2) + 1)
        = (if n + 1 = 0 then 0 else bitLengthAux f2 ((n + 1) / 2) + 1)
      rw [if_neg (by omega), if_neg (by omega),
        ih f2 ((n + 1) / 2) (by omega) (by omega)]

theorem bitLengthAux_mono : ∀ (f m n : Nat), m ≤ n → n ≤ f →
    bitLengthAux f m ≤ bitLengthAux f n := by
  intro f
  induction f with
  | zero =>
    intro m n h1 h2
    obtain rfl : n = 0 := by omega
    obtain rfl : m = 0 := by omega
    exact Nat.le_refl _
  | succ g ih =>
    intro m n h1 h2
    match m with
    | 0 => rw [bitLengthAux_zero]; exact Nat.zero_le _
    | m' + 1 =>
      obtain ⟨n', rfl⟩ : ∃ k, n = k + 1 := ⟨n - 1, by omega⟩
      show (if m' + 1 = 0 then 0 else bitLengthAux g ((m' + 1) / 2) + 1)
        ≤ (if n' + 1 = 0 then 0 else bitLengthAux g ((n' + 1) / 2) + 1)
      rw [if_neg (by omega), if_neg (by omega)]
      have hih := ih ((m' + 1) / 2) ((n' + 1) / 2) (by omega) (by omega)
      omega

theorem bit_length_mono {m n : Nat} (h : m ≤ n) : bit_length m ≤ bit_length n := by
  unfold bit_length
  rw [bitLengthAux_congr m n m (Nat.le_refl m) h]
  exact bitLengthAux_mono n m n h (Nat.le_refl n)

theorem bit_length_max (m n : Nat) :
    bit_length (max m n) = max (bit_length m) (bit_length n) :=
  Monotone.map_max (fun _ _ h => bit_length_mono h)

theorem simWidth_unbounded_spec {t : NumericType} (hb : t.bits = none) (a b : Int) :
    simWidth a b t
      = max ((([a, b, a + b].map (fun v => bit_length v.natAbs)).foldl max 0) + 1)
          1 := by
  rw [simWidth_unbounded hb]
  unfold NumericType.bit_length_for_values
  rw [hb]
  simp only [List.map_cons, List.map_nil, List.foldl_cons, List.foldl_nil]
  have h1 : bit_length (max (max (max 0 a.natAbs) b.natAbs) (a + b).natAbs)
      = max (max (max 0 (bit_length a.natAbs)) (bit_length b.natAbs))
          (bit_length (a + b).natAbs) := by
    rw [bit_length_max, bit_length_max, bit_length_max,
      show bit_length 0 = 0 from rfl]
  rw [h1]
  omega

theorem simWidth_pos {t : NumericType} (a b : Int)
    (h : t.bits = none ∨ ∃ n, t.bits = some n ∧ 0 < n) : 0 < simWidth a b t := by
  rcases h with hb | ⟨n, hb, hn⟩
  · rw [simWidth_unbounded hb]; omega
  · rw [simWidth_fixed hb]; exact hn

/-! ### Registry lookup lemmas -/

theorem mem_insertSorted (x s : String) : ∀ l : List String,
    x ∈ insertSorted s l ↔ x = s ∨ x ∈ l := by
  intro l
  induction l with
  | nil => simp [insertSorted]
  | cons y rest ih =>
    unfold insertSorted
    split
    · simp
    · simp only [List.mem_cons, ih]
      tauto

theorem mem_pySorted {x : String} : ∀ {l : List String}, x ∈ l → x ∈ pySorted l := by
  intro l
  induction l with
  | nil => intro h; simp at h
  | cons y rest ih =>
    intro h
    show x ∈ insertSorted y (pySorted rest)
    rw [mem_insertSorted]
    rcases List.mem_cons.mp h with h0 | h0
    · exact Or.inl h0
    · exact Or.inr (ih h0)

theorem lookup_eq_none_of_not_mem :
    ∀ (l : List (String × NumericType)) (k : String),
      k ∉ l.map Prod.fst → l.lookup k = none := by
  intro l
  induction l with
  | nil => intro k _; rfl
  | cons p rest ih =>
    intro k hk
    obtain ⟨k0, t0⟩ := p
    have hne : k ≠ k0 := fun hc => hk (by simp [hc])
    have hbeq : (k == k0) = false := beq_eq_false_iff_ne.mpr hne
    rw [List.lookup_cons, hbeq]
    exact ih k (fun hc => hk (by simp [hc]))

theorem lookup_of_mem_nodup : ∀ (l : List (String × NumericType)) (k : String)
    (t : NumericType), (l.map Prod.fst).Nodup → (k, t) ∈ l →
    l.lookup k = some t := by
  intro l
  induction l with
  | nil => intro k t _ h; simp at h
  | cons p rest ih =>
    intro k t hnd hmem
    obtain ⟨k0, t0⟩ := p
    have hnd' : (k0 :: rest.map Prod.fst).Nodup := by simpa using hnd
    rcases List.mem_cons.mp hmem with h0 | h0
    · have hk : k = k0 := congrArg Prod.fst h0
      have ht : t = t0 := congrArg Prod.snd h0
      subst hk
      subst ht
      simp [List.lookup]
    · have hk0 : k ≠ k0 := by
        intro hkk
        subst hkk
        have hin : k ∈ rest.map Prod.fst := List.mem_map.mpr ⟨(k, t), h0, rfl⟩
        exact (List.nodup_cons.mp hnd').1 hin
      have hbeq : (k == k0) = false := beq_eq_false_iff_ne.mpr hk0
      show List.lookup k ((k0, t0) :: rest) = some t
      rw [List.lookup_cons, hbeq]
      exact ih k t (List.nodup_cons.mp hnd').2 h0

/-! ### Inversion of a successful simulation -/

theorem simulate_ok_shape {t : NumericType} {a b : Int} {r : AdditionResult}
    (h : simulate_addition a b t = Except.ok r) :
    r.numeric_type = t ∧ r.lhs = a ∧ r.rhs = b
    ∧ r.steps = (simRipple a b t).1 ∧ r.final_carry = (simRipple a b t).2 := by
  cases hb : t.bits with
  | none =>
    rw [simulate_unbounded_eq hb] at h
    obtain rfl := Except.ok.inj h
    exact ⟨rfl, rfl, rfl, rfl, rfl⟩
  | some n =>
    have hranges := simulate_ok_ranges h (by rw [hb]; exact fun hc => by simp at hc)
    rw [simulate_fixed_eq hb a b hranges.1 hranges.2] at h
    obtain rfl := Except.ok.inj h
    exact ⟨rfl, rfl, rfl, rfl, rfl⟩

theorem simulate_ok_fixed_shape {t : NumericType} {n : Nat} {a b : Int}
    {r : AdditionResult} (hb : t.bits = some n)
    (h : simulate_addition a b t = Except.ok r) :
    r.result = t.normalize (a + b)
    ∧ r.result_bits
        = int_to_bits (((t.normalize (a + b)) % (2 ^ n : Int)).toNat : Int) n false
    ∧ r.overflow =
        (decide (¬(t.min_value ≤ a + b ∧ a + b ≤ t.max_value))
          || (if t.signed then false else decide ((simRipple a b t).2 ≠ 0))
          || (if t.signed then
                match (simRipple a b t).1.getLast? with
                | some s => decide (s.carry_in ^^^ s.carry_out ≠ 0)
                | none => false
              else false)) := by
  have hranges := simulate_ok_ranges h (by rw [hb]; exact fun hc => by simp at hc)
  rw [simulate_fixed_eq hb a b hranges.1 hranges.2] at h
  obtain rfl := Except.ok.inj h
  exact ⟨rfl, rfl, rfl⟩

theorem simulate_ok_unbounded_shape {t : NumericType} {a b : Int}
    {r : AdditionResult} (hb : t.bits = none)
    (h : simulate_addition a b t = Except.ok r) :
    r.result = a + b ∧ r.overflow = false
    ∧ r.result_bits = (if (simRipple a b t).2 ≠ 0
        then ((simRipple a b t).1.map AdderStep.sum_bit) ++ [(simRipple a b t).2]
        else ((simRipple a b t).1.map AdderStep.sum_bit)) := by
  rw [simulate_unbounded_eq hb] at h
  obtain rfl := Except.ok.inj h
  exact ⟨rfl, rfl, rfl⟩

theorem simRipple_steps_get {a b : Int} {t : NumericType} (i : Nat)
    (hi : i < (simRipple a b t).1.length) :
    (simRipple a b t).1.get ⟨i, hi⟩
      = fullAdderStep i ((simLhsBits a b t).getD i 0) ((simRhsBits a b t).getD i 0)
          (carryChain (simLhsBits a b t) (simRhsBits a b t) 0 0 i) := by
  have hlen : (simRipple a b t).1.length = simWidth a b t :=
    rippleFrom_fst_length (simLhsBits a b t) (simRhsBits a b t) (simWidth a b t) 0 0
  have hq := rippleFrom_get? (simLhsBits a b t) (simRhsBits a b t)
    (simWidth a b t) 0 0 i (by omega)
  simp only [Nat.zero_add] at hq
  have hq2 : (simRipple a b t).1.get? i
      = some (fullAdderStep i ((simLhsBits a b t).getD i 0)
          ((simRhsBits a b t).getD i 0)
          (carryChain (simLhsBits a b t) (simRhsBits a b t) 0 0 i)) := hq
  rw [List.get?_eq_get hi] at hq2
  exact Option.some.inj hq2

theorem simulate_ok_steps_length {t : NumericType} {a b : Int} {r : AdditionResult}
    (h : simulate_addition a b t = Except.ok r) :
    r.steps.length = simWidth a b t := by
  rw [(simulate_ok_shape h).2.2.2.1]
  exact rippleFrom_fst_length _ _ (simWidth a b t) 0 0

theorem int_to_bits_le_one (v : Int) (n : Nat) (s : Bool) :
    ∀ x ∈ int_to_bits v n s, x ≤ 1 := by
  unfold int_to_bits
  split
  · intro x hx
    simp at hx
    omega
  · intro x hx
    simp only [List.mem_map] at hx
    obtain ⟨i, _, rfl⟩ := hx
    rw [Nat.and_one_is_mod]
    omega

theorem int_to_bits_getD_le (v : Int) (n : Nat) (s : Bool) (i : Nat) :
    (int_to_bits v n s).getD i 0 ≤ 1 := by
  by_cases hlt : i < (int_to_bits v n s).length
  · rw [List.getD_eq_getElem _ _ hlt]
    exact int_to_bits_le_one v n s _ (List.getElem_mem hlt)
  · rw [List.getD_eq_default _ _ (by omega)]
    omega

theorem simRipple_fc_le_one (a b : Int) (t : NumericType) :
    (simRipple a b t).2 ≤ 1 := by
  obtain ⟨_, hfc, _⟩ := ripple_value (simLhsBits a b t) (simRhsBits a b t)
    (int_to_bits_getD_le _ _ _) (int_to_bits_getD_le _ _ _)
    (simWidth a b t) 0 0 (by omega)
  exact hfc

theorem msb_bit_eq_one_iff {E n : Nat} (hn : 0 < n) (hE : E < 2 ^ n) :
    (E / 2 ^ (n - 1) % 2 = 1) ↔ 2 ^ (n - 1) ≤ E := by
  have hmsb := testBit_msb hn hE
  rw [Nat.testBit_to_div_mod] at hmsb
  constructor
  · intro h1
    have hp : decide (E / 2 ^ (n - 1) % 2 = 1) = true := decide_eq_true h1
    rw [hmsb] at hp
    exact of_decide_eq_true hp
  · intro h2
    have hq : decide (2 ^ (n - 1) ≤ E) = true := decide_eq_true h2
    rw [← hmsb] at hq
    exact of_decide_eq_true hq

/-- The authoritative result bit vector of the fixed branch is exactly the
    binary digits of (a + b) mod 2^n. -/
theorem fixed_result_bits_eq {t : NumericType} {n : Nat} (hb : t.bits = some n)
    (hn : 0 < n) (a b : Int) :
    int_to_bits (((t.normalize (a + b)) % (2 ^ n : Int)).toNat : Int) n false
      = natBits (((a + b) % (2 ^ n : Int)).toNat) n := by
  rw [normalize_emod hb, int_to_bits_eq _ hn]
  congr 1
  have h1 : (0 : Int) ≤ ((((a + b) % (2 ^ n : Int)).toNat : Nat) : Int) :=
    Int.natCast_nonneg _
  have h2 : ((((a + b) % (2 ^ n : Int)).toNat : Nat) : Int) < (2 ^ n : Int) := by
    rw [toNat_emod_cast]
    exact emod_two_pow_lt (a + b) n
  rw [Int.emod_eq_of_lt h1 h2, Int.toNat_natCast]

/-- Decoding the digits of v mod 2^n under the signedness of t recovers
    exactly normalize(t, v). -/
theorem decode_natBits_eq_normalize {t : NumericType} {n : Nat}
    (hb : t.bits = some n) (hn : 0 < n) (v : Int) :
    bits_to_int (natBits ((v % (2 ^ n : Int)).toNat) n) t.signed
      = t.normalize v := by
  set E := ((v % (2 ^ n : Int)).toNat) with hE
  have hElt : E < 2 ^ n := toNat_emod_two_pow_lt v n
  have hle := natBits_le_one E n
  rw [bits_to_int_eq _ _ hle, normalize_some hb hn v]
  have hlen := natBits_length E n
  have hlast := natBits_getLast? E hn
  have hlval : lval (natBits E n) = E := by
    rw [lval_natBits, Nat.mod_eq_of_lt hElt]
  have hne : natBits E n ≠ [] := by
    intro hc
    rw [hc] at hlen
    simp at hlen
    omega
  have hcast : ((E : Nat) : Int) = v % (2 ^ n : Int) := toNat_emod_cast v n
  by_cases hs : t.signed = true
  · by_cases hmsb : 2 ^ (n - 1) ≤ E
    · rw [if_pos ⟨hs, hne, by
          rw [hlast]
          exact congrArg some ((msb_bit_eq_one_iff hn hElt).mpr hmsb)⟩,
        if_pos ⟨hs, hmsb⟩, hlval, hlen, hcast]
    · have hbit : E / 2 ^ (n - 1) % 2 ≠ 1 :=
        fun hc => hmsb ((msb_bit_eq_one_iff hn hElt).mp hc)
      rw [if_neg (fun hc => hbit (by
          have h3 := hc.2.2
          rw [hlast] at h3
          exact Option.some.inj h3)),
        if_neg (fun hc => hmsb hc.2), hlval, hcast]
  · rw [if_neg (fun hc => hs hc.1), if_neg (fun hc => hs hc.1), hlval, hcast]

/-! ### The claims -/

/-- C1: for every fixed-width type and in-range operands the simulated result is
    normalize(T, a+b) and the little-endian result_bits decode back to that same
    result under T's signedness; for the unbounded type the result is the exact
    mathematical sum and the overflow flag is false. -/
theorem C1_result_and_decode (a b : Int) (t : NumericType) (r : AdditionResult)
    (h : simulate_addition a b t = Except.ok r) :
    (∀ n : Nat, t.bits = some n → 0 < n →
      r.result = t.normalize (a + b)
      ∧ bits_to_int r.result_bits t.signed = r.result)
    ∧ (t.bits = none → r.result = a + b ∧ r.overflow = false) := by
  constructor
  · intro n hb hn
    obtain ⟨hres, hbits, _⟩ := simulate_ok_fixed_shape hb h
    refine ⟨hres, ?_⟩
    rw [hbits, hres, fixed_result_bits_eq hb hn a b,
      decode_natBits_eq_normalize hb hn (a + b)]
  · intro hb
    obtain ⟨h1, h2, _⟩ := simulate_ok_unbounded_shape hb h
    exact ⟨h1, h2⟩

/-- C1 witness: int8_t with operands 100 and 100 wraps to -56 and the stored
    bit vector decodes to -56 as well. -/
theorem C1_result_and_decode_witness :
    (simulate_addition 100 100 int8_t).toOption.map
        (fun r => (r.result, bits_to_int r.result_bits int8_t.signed))
      = some (-56, -56) := by
  obtain ⟨r, hr⟩ : ∃ r, simulate_addition 100 100 int8_t = Except.ok r := ⟨_, rfl⟩
  obtain ⟨hres, hdec⟩ :=
    (C1_result_and_decode 100 100 int8_t r hr).1 8 rfl (by omega)
  have hval : int8_t.normalize (100 + 100) = -56 := by decide
  rw [hr]
  show some (r.result, bits_to_int r.result_bits int8_t.signed) = some (-56, -56)
  rw [hres, hdec, hres, hval]

/-- C5: for fixed-width types the stored result_bits vector is the unsigned
    little-endian encoding of (a+b) mod 2^width, and it coincides bit for bit
    with the per-step sum bits of the ripple-carry simulation. -/
theorem C5_result_bits_refinement (a b : Int) (t : NumericType) (n : Nat)
    (r : AdditionResult) (hb : t.bits = some n) (hn : 0 < n)
    (h : simulate_addition a b t = Except.ok r) :
    r.result_bits = natBits (((a + b) % (2 ^ n : Int)).toNat) n
    ∧ r.result_bits = r.steps.map AdderStep.sum_bit := by
  obtain ⟨_, _, _, hsteps, _⟩ := simulate_ok_shape h
  obtain ⟨_, hbits, _⟩ := simulate_ok_fixed_shape hb h
  have h1 : r.result_bits = natBits (((a + b) % (2 ^ n : Int)).toNat) n := by
    rw [hbits, fixed_result_bits_eq hb hn]
  refine ⟨h1, ?_⟩
  rw [h1, hsteps, (fixed_bits_spec hb hn a b).1]

/-- C5 witness: for uint8_t with operands 200 and 100 (sum 300, wrapping to 44)
    the stored bit vector equals the per-step sum bits. -/
theorem C5_result_bits_refinement_witness :
    (simulate_addition 200 100 uint8_t).toOption.map
        (fun r => (decide (r.result_bits = r.steps.map AdderStep.sum_bit),
          r.result_bits))
      = some (true, natBits 44 8) := by
  obtain ⟨r, hr⟩ : ∃ r, simulate_addition 200 100 uint8_t = Except.ok r := ⟨_, rfl⟩
  obtain ⟨h1, h2⟩ :=
    C5_result_bits_refinement 200 100 uint8_t 8 r rfl (by omega) hr
  rw [hr]
  show some (decide (r.result_bits = r.steps.map AdderStep.sum_bit), r.result_bits)
    = some (true, natBits 44 8)
  have h3 : r.steps.map AdderStep.sum_bit
      = natBits ((((200 : Int) + 100) % (2 ^ 8 : Int)).toNat) 8 := by
    rw [← h2, h1]
  have hE : (((200 : Int) + 100) % (2 ^ 8 : Int)).toNat = 44 := by decide
  rw [h1, h3, hE]
  simp

/-- C4: the number of recorded steps equals the bit width used for the
    computation (declared width for fixed types, the dynamic formula for the
    unbounded type) and the steps carry ascending bit indices. -/
theorem C4_steps_length (a b : Int) (t : NumericType) (r : AdditionResult)
    (h : simulate_addition a b t = Except.ok r) :
    (∀ n : Nat, t.bits = some n → r.steps.length = n)
    ∧ (t.bits = none →
        r.steps.length
          = max ((([a, b, a + b].map (fun v => bit_length v.natAbs)).foldl max 0)
              + 1) 1)
    ∧ ∀ i (hi : i < r.steps.length), (r.steps.get ⟨i, hi⟩).bit_index = i := by
  have hlen := simulate_ok_steps_length h
  refine ⟨?_, ?_, ?_⟩
  · intro n hb
    rw [hlen, simWidth_fixed hb]
  · intro hb
    rw [hlen, simWidth_unbounded_spec hb]
  · intro i hi
    obtain ⟨_, _, _, hsteps, _⟩ := simulate_ok_shape h
    revert hi
    rw [hsteps]
    intro hi
    rw [simRipple_steps_get i hi]
    rfl

/-- C4 witness: uint16_t drives a 16-step simulation with ascending indices. -/
theorem C4_steps_length_witness :
    (simulate_addition 7 9 (NumericType.mk "uint16_t" (some 16) false)).toOption.map
        (fun r => r.steps.length)
      = some 16 := by
  obtain ⟨r, hr⟩ : ∃ r, simulate_addition 7 9 (NumericType.mk "uint16_t"
      (some 16) false) = Except.ok r := ⟨_, rfl⟩
  have h4 := (C4_steps_length 7 9 _ r hr).1 16 rfl
  rw [hr]
  show some r.steps.length = some 16
  rw [h4]

/-- C3: every recorded step obeys the full-adder equations on the encoded
    operand bits, carries chain from 0 across the steps, and each step records
    exactly the five gates AxorB, SUM, CARRY_GEN, CARRY_PROP, CARRY_OUT in that
    order with the inputs each gate consumed. -/
theorem C3_step_laws (a b : Int) (t : NumericType) (r : AdditionResult)
    (h : simulate_addition a b t = Except.ok r) :
    ∀ i (hi : i < r.steps.length),
      ((r.steps.get ⟨i, hi⟩).sum_bit
        = ((simLhsBits a b t).getD i 0 ^^^ (simRhsBits a b t).getD i 0)
          ^^^ (r.steps.get ⟨i, hi⟩).carry_in)
      ∧ ((r.steps.get ⟨i, hi⟩).carry_out
        = ((simLhsBits a b t).getD i 0 &&& (simRhsBits a b t).getD i 0)
          ||| (((simLhsBits a b t).getD i 0 ^^^ (simRhsBits a b t).getD i 0)
            &&& (r.steps.get ⟨i, hi⟩).carry_in))
      ∧ (i = 0 → (r.steps.get ⟨i, hi⟩).carry_in = 0)
      ∧ (∀ hj : i + 1 < r.steps.length,
          (r.steps.get ⟨i + 1, hj⟩).carry_in = (r.steps.get ⟨i, hi⟩).carry_out)
      ∧ (r.steps.get ⟨i, hi⟩).gate_states = [
          { name := "A" ++ toString i ++ "_XOR_B" ++ toString i,
            gate_type := "XOR",
            inputs := [("A", (simLhsBits a b t).getD i 0),
              ("B", (simRhsBits a b t).getD i 0)],
            output := (simLhsBits a b t).getD i 0 ^^^ (simRhsBits a b t).getD i 0 },
          { name := "SUM" ++ toString i, gate_type := "XOR",
            inputs := [("XOR",
                (simLhsBits a b t).getD i 0 ^^^ (simRhsBits a b t).getD i 0),
              ("CarryIn", (r.steps.get ⟨i, hi⟩).carry_in)],
            output := ((simLhsBits a b t).getD i 0 ^^^ (simRhsBits a b t).getD i 0)
              ^^^ (r.steps.get ⟨i, hi⟩).carry_in },
          { name := "CARRY_GEN" ++ toString i, gate_type := "AND",
            inputs := [("A", (simLhsBits a b t).getD i 0),
              ("B", (simRhsBits a b t).getD i 0)],
            output := (simLhsBits a b t).getD i 0 &&& (simRhsBits a b t).getD i 0 },
          { name := "CARRY_PROP" ++ toString i, gate_type := "AND",
            inputs := [("A_xor_B",
                (simLhsBits a b t).getD i 0 ^^^ (simRhsBits a b t).getD i 0),
              ("CarryIn", (r.steps.get ⟨i, hi⟩).carry_in)],
            output := ((simLhsBits a b t).getD i 0 ^^^ (simRhsBits a b t).getD i 0)
              &&& (r.steps.get ⟨i, hi⟩).carry_in },
          { name := "CARRY_OUT" ++ toString i, gate_type := "OR",
            inputs := [("Gen",
                (simLhsBits a b t).getD i 0 &&& (simRhsBits a b t).getD i 0),
              ("Prop",
                ((simLhsBits a b t).getD i 0 ^^^ (simRhsBits a b t).getD i 0)
                  &&& (r.steps.get ⟨i, hi⟩).carry_in)],
            output := ((simLhsBits a b t).getD i 0 &&& (simRhsBits a b t).getD i 0)
              ||| (((simLhsBits a b t).getD i 0
                  ^^^ (simRhsBits a b t).getD i 0)
                &&& (r.steps.get ⟨i, hi⟩).carry_in) } ] := by
  obtain ⟨_, _, _, hsteps, _⟩ := simulate_ok_shape h
  intro i
  revert i
  rw [hsteps]
  intro i hi
  rw [simRipple_steps_get i hi]
  refine ⟨rfl, rfl, ?_, ?_, rfl⟩
  · intro hif
    subst hif
    rfl
  · intro hj
    rw [simRipple_steps_get (i + 1) hj]
    show carryChain (simLhsBits a b t) (simRhsBits a b t) 0 0 (i + 1) = _
    simp only [carryChain, Nat.zero_add]

/-- C3 witness: in the uint8_t simulation of 3 + 5 the first step has carry-in
    0 and sum bit 0 (both operands have bit 0 set). -/
theorem C3_step_laws_witness :
    (simulate_addition 3 5 uint8_t).toOption.map
        (fun r => (r.steps.get? 0).map (fun s => (s.carry_in, s.sum_bit)))
      = some (some (0, 0)) := by
  obtain ⟨r, hr⟩ : ∃ r, simulate_addition 3 5 uint8_t = Except.ok r := ⟨_, rfl⟩
  have hlen : 0 < r.steps.length := by
    rw [simulate_ok_steps_length hr, simWidth_fixed rfl]
    omega
  obtain ⟨hsum, _, hcz, _, _⟩ := C3_step_laws 3 5 uint8_t r hr 0 hlen
  have hc0 : (r.steps.get ⟨0, hlen⟩).carry_in = 0 := hcz rfl
  have hs0 : (r.steps.get ⟨0, hlen⟩).sum_bit = 0 := by
    rw [hsum, hc0]
    decide
  rw [hr]
  show some ((r.steps.get? 0).map (fun s => (s.carry_in, s.sum_bit)))
    = some (some (0, 0))
  rw [List.get?_eq_get hlen]
  show some (some ((r.steps.get ⟨0, hlen⟩).carry_in,
      (r.steps.get ⟨0, hlen⟩).sum_bit)) = some (some (0, 0))
  rw [hc0, hs0]

/-- C2: for fixed-width types the overflow flag is the disjunction of range
    overflow, unsigned carry overflow (final carry 1, unsigned types only) and
    signed overflow (carry into the most significant bit differs from the carry
    out of it, signed types only); at most one of the latter two can hold, and
    uint8_t 255 + 1 gives result 0, overflow true, final carry 1. -/
theorem C2_overflow_classification :
    (∀ (a b : Int) (t : NumericType) (n : Nat) (r : AdditionResult),
      t.bits = some n → 0 < n → simulate_addition a b t = Except.ok r →
        (r.overflow = true ↔
          (¬(t.min_value ≤ a + b ∧ a + b ≤ t.max_value))
          ∨ (t.signed = false ∧ r.final_carry = 1)
          ∨ (t.signed = true ∧ ∃ s, r.steps.getLast? = some s
              ∧ s.carry_in ≠ s.carry_out))
        ∧ ¬((t.signed = false ∧ r.final_carry = 1)
            ∧ (t.signed = true ∧ ∃ s, r.steps.getLast? = some s
                ∧ s.carry_in ≠ s.carry_out)))
    ∧ (simulate_addition 255 1 uint8_t).toOption.map
        (fun r => (r.result, r.overflow, r.final_carry)) = some (0, true, 1) := by
  constructor
  · intro a b t n r hb hn h
    obtain ⟨_, _, _, hsteps, hfcs⟩ := simulate_ok_shape h
    obtain ⟨_, _, hovf⟩ := simulate_ok_fixed_shape hb h
    have hfcle := simRipple_fc_le_one a b t
    have hfc1 : (simRipple a b t).2 ≠ 0 ↔ (simRipple a b t).2 = 1 :=
      ⟨fun h2 => by omega, fun h2 => by omega⟩
    constructor
    · rw [hovf, hsteps, hfcs]
      cases hsb : t.signed with
      | false =>
        simp [hsb, hfc1, decide_eq_true_eq]
        omega
      | true =>
        cases hL : (simRipple a b t).1.getLast? with
        | none =>
          simp [hsb, hL, decide_eq_true_eq]
          omega
        | some s0 =>
          simp [hsb, hL, decide_eq_true_eq, ne_eq, Nat.xor_eq_zero]
          omega
    · intro hcon
      have h1 := hcon.1.1
      have h2 := hcon.2.1
      rw [h1] at h2
      exact Bool.noConfusion h2
  · rfl

/-- C2 witness: uint8_t 250 + 10 overflows (range overflow at sum 260). -/
theorem C2_overflow_classification_witness :
    (simulate_addition 250 10 uint8_t).toOption.map (fun r => r.overflow)
      = some true := by
  obtain ⟨r, hr⟩ : ∃ r, simulate_addition 250 10 uint8_t = Except.ok r := ⟨_, rfl⟩
  have hgen := (C2_overflow_classification.1 250 10 uint8_t 8 r rfl
    (by omega) hr).1
  have hovf : r.overflow = true := hgen.mpr (Or.inl (by decide))
  rw [hr]
  show some r.overflow = some true
  rw [hovf]

/-- C6: the timeline of a simulated result has length 5 * number of steps plus
    one exactly when the final carry is 1, the extra element being a synthetic
    OUTPUT event named FINAL_CARRY whose single input and output both equal the
    final carry, appended after all gate events. -/
theorem C6_timeline_length (a b : Int) (t : NumericType) (r : AdditionResult)
    (h : simulate_addition a b t = Except.ok r) :
    (buildTimeline r).length
        = 5 * r.steps.length + (if r.final_carry = 1 then 1 else 0)
    ∧ (r.final_carry = 1 →
        buildTimeline r
          = stepsEventsFrom r.steps 0 ++ [{
              tick := 5 * r.steps.length,
              bit_index := ((r.steps.getLast?).map AdderStep.bit_index).getD 0,
              gate_state := { name := "FINAL_CARRY", gate_type := "OUTPUT",
                              inputs := [("CarryOut", r.final_carry)],
                              output := r.final_carry },
              step := r.steps.getLast? }]) := by
  obtain ⟨_, _, _, hsteps, hfcs⟩ := simulate_ok_shape h
  have h5 : ∀ s ∈ r.steps, s.gate_states.length = 5 := by
    rw [hsteps]
    exact rippleFrom_gates_length _ _ _ 0 0
  have hlen5 := stepsEventsFrom_length_five r.steps h5 0
  have hfcle : r.final_carry ≤ 1 := by
    rw [hfcs]
    exact simRipple_fc_le_one a b t
  have hmsb : (match r.steps.getLast? with
      | some s => s.bit_index
      | none => 0) = ((r.steps.getLast?).map AdderStep.bit_index).getD 0 := by
    cases r.steps.getLast? <;> rfl
  by_cases hfc1 : r.final_carry = 1
  · constructor
    · simp only [buildTimeline]
      rw [if_pos (show r.final_carry ≠ 0 by omega), List.length_append, hlen5,
        if_pos hfc1, List.length_singleton]
    · intro _
      simp only [buildTimeline]
      rw [if_pos (show r.final_carry ≠ 0 by omega), hlen5, hmsb]
  · have hfc0 : r.final_carry = 0 := by omega
    refine ⟨?_, fun hc => absurd hc hfc1⟩
    simp only [buildTimeline]
    rw [if_neg (by omega), hlen5, if_neg hfc1]
    omega

/-- C6 witness: uint8_t 255 + 1 yields 8 steps and a set final carry, so the
    timeline has 41 events. -/
theorem C6_timeline_length_witness :
    (simulate_addition 255 1 uint8_t).toOption.map
        (fun r => (buildTimeline r).length) = some 41 := by
  obtain ⟨r, hr⟩ : ∃ r, simulate_addition 255 1 uint8_t = Except.ok r := ⟨_, rfl⟩
  have h6 := (C6_timeline_length 255 1 uint8_t r hr).1
  have hlen : r.steps.length = 8 := by
    rw [simulate_ok_steps_length hr, simWidth_fixed rfl]
  have hfc : r.final_carry = 1 := by
    rw [(simulate_ok_shape hr).2.2.2.2]
    decide
  rw [hr]
  show some (buildTimeline r).length = some 41
  rw [h6, hlen, hfc]
  rfl

/-- C7: in any timeline built from an AdditionResult the tick of the event at
    index i is exactly i, so ticks start at 0 and strictly increase by one,
    including across the synthetic terminal event. -/
theorem C7_tick_monotone (r : AdditionResult) :
    ∀ i (hi : i < (buildTimeline r).length),
      ((buildTimeline r).get ⟨i, hi⟩).tick = i := by
  have key : ∀ i, i < (buildTimeline r).length →
      ((buildTimeline r).get? i).map TimelineEvent.tick = some i := by
    intro i
    simp only [buildTimeline]
    split
    · intro hi
      have hb : i < (stepsEventsFrom r.steps 0).length + 1 := by
        rw [List.length_append, List.length_singleton] at hi
        exact hi
      by_cases hi2 : i < (stepsEventsFrom r.steps 0).length
      · rw [List.get?_append hi2]
        have h0 := stepsEventsFrom_tick? r.steps 0 i hi2
        simpa using h0
      · rw [List.get?_append_right (by omega)]
        have h0 : i - (stepsEventsFrom r.steps 0).length = 0 := by omega
        rw [h0]
        show some (stepsEventsFrom r.steps 0).length = some i
        exact congrArg some (by omega)
    · intro hi
      have h0 := stepsEventsFrom_tick? r.steps 0 i hi
      simpa using h0
  intro i hi
  have k := key i hi
  rw [List.get?_eq_get hi] at k
  exact Option.some.inj k

/-- C7 witness: a result with no steps and final carry 1 yields a one-event
    timeline whose single tick is 0. -/
theorem C7_tick_monotone_witness :
    ((buildTimeline (AdditionResult.mk (NumericType.mk "int" none true)
        0 0 0 false [] [1] 1)).get? 0).map TimelineEvent.tick = some 0 := by
  have h0 : 0 < (buildTimeline (AdditionResult.mk (NumericType.mk "int" none true)
      0 0 0 false [] [1] 1)).length := by decide
  rw [List.get?_eq_get h0]
  exact congrArg some (C7_tick_monotone _ 0 h0)

/-- C8 counterexample: for uint8_t with left operand 300 the raised message is
    exactly "Left operand 300 does not fit into uint8_t."; it names the operand
    and its value but nowhere contains 255, so it does not state the valid
    range [0, 255] asserted by the claim. -/
theorem C8_range_error_counterexample :
    simulate_addition 300 1 uint8_t
        = Except.error "Left operand 300 does not fit into uint8_t."
    ∧ containsSub "Left operand 300 does not fit into uint8_t.".data
        "255".data = false := by
  constructor
  · rfl
  · rfl

/-- C8 amended: an out-of-range operand on a fixed-width type fails with a
    message naming which operand (left checked first), its value and the type
    name (but not the type's numeric range); unbounded types never fail. -/
theorem C8_range_error_amended :
    (∀ (a b : Int) (t : NumericType) (n : Nat), t.bits = some n →
      ¬(t.min_value ≤ a ∧ a ≤ t.max_value) →
      simulate_addition a b t = Except.error
        ("Left operand " ++ toString a ++ " does not fit into "
          ++ t.name ++ "."))
    ∧ (∀ (a b : Int) (t : NumericType) (n : Nat), t.bits = some n →
      (t.min_value ≤ a ∧ a ≤ t.max_value) →
      ¬(t.min_value ≤ b ∧ b ≤ t.max_value) →
      simulate_addition a b t = Except.error
        ("Right operand " ++ toString b ++ " does not fit into "
          ++ t.name ++ "."))
    ∧ ∀ (a b : Int) (t : NumericType), t.bits = none →
        ∃ r, simulate_addition a b t = Except.ok r := by
  refine ⟨?_, ?_, ?_⟩
  · intro a b t n hb hout
    unfold simulate_addition
    rw [if_pos ⟨by rw [hb]; simp, hout⟩]
  · intro a b t n hb hin hout
    unfold simulate_addition
    rw [if_neg (fun hc => hc.2 hin), if_pos ⟨by rw [hb]; simp, hout⟩]
  · intro a b t hb
    exact ⟨_, simulate_unbounded_eq hb a b⟩

/-- C8 witness: the right operand is validated after the left one, with the
    same message shape. -/
theorem C8_range_error_amended_witness :
    simulate_addition 5 999 uint8_t
      = Except.error "Right operand 999 does not fit into uint8_t." := by
  have h := C8_range_error_amended.2.1 5 999 uint8_t 8 rfl (by decide) (by decide)
  rw [h]
  rfl

/-- C9: type lookup is case-insensitive on the trimmed name, and a failed
    lookup reports the full sorted list of registered names and aliases. -/
theorem C9_lookup_type :
    (∀ (s k : String) (t : NumericType), (k, t) ∈ NUMERIC_TYPES →
      pyLower (pyStrip s) = k → get_numeric_type s = Except.ok t)
    ∧ (∀ s : String, pyLower (pyStrip s) ∉ NUMERIC_TYPES.map Prod.fst →
        ∃ names, get_numeric_type s = Except.error names
          ∧ ∀ (k : String) (t : NumericType), (k, t) ∈ NUMERIC_TYPES →
            k ∈ names) := by
  constructor
  · intro s k t hmem heq
    simp only [get_numeric_type]
    rw [heq, lookup_of_mem_nodup NUMERIC_TYPES k t (by decide) hmem]
  · intro s hnot
    have hnone : NUMERIC_TYPES.lookup (pyLower (pyStrip s)) = none :=
      lookup_eq_none_of_not_mem NUMERIC_TYPES _ hnot
    refine ⟨pySorted (NUMERIC_TYPES.map Prod.fst), ?_, ?_⟩
    · simp only [get_numeric_type]
      rw [hnone]
    · intro k t hmem
      exact mem_pySorted (List.mem_map.mpr ⟨(k, t), hmem, rfl⟩)

/-- C9 witness: a padded mixed-case alias resolves to the uint8_t record. -/
theorem C9_lookup_type_witness :
    get_numeric_type " UInt8_T " = Except.ok uint8_t :=
  C9_lookup_type.1 " UInt8_T " "uint8_t" uint8_t (by decide) (by decide)

/-- C10: every simulated result has at least one step because the computed bit
    width is at least 1; hence when the final carry is 1, the synthetic
    terminal event carries the last step as back-reference and that step's bit
    index — the zero-step fallbacks are unreachable. -/
theorem C10_steps_nonempty (a b : Int) (t : NumericType) (r : AdditionResult)
    (hw : t.bits = none ∨ ∃ n, t.bits = some n ∧ 0 < n)
    (h : simulate_addition a b t = Except.ok r) :
    r.steps ≠ []
    ∧ (r.final_carry = 1 →
        ∃ s, r.steps.getLast? = some s ∧
          (buildTimeline r).getLast?
            = some { tick := 5 * r.steps.length, bit_index := s.bit_index,
                     gate_state := { name := "FINAL_CARRY",
                                     gate_type := "OUTPUT",
                                     inputs := [("CarryOut", 1)], output := 1 },
                     step := some s }) := by
  obtain ⟨_, _, _, hsteps, hfcs⟩ := simulate_ok_shape h
  have hlen := simulate_ok_steps_length h
  have hpos := simWidth_pos a b hw
  have hne : r.steps ≠ [] := by
    intro hc
    rw [hc] at hlen
    simp at hlen
    omega
  refine ⟨hne, ?_⟩
  intro hfc1
  obtain ⟨s, hs⟩ : ∃ s, r.steps.getLast? = some s := by
    cases hL : r.steps.getLast? with
    | none => exact absurd (List.getLast?_eq_none_iff.mp hL) hne
    | some s => exact ⟨s, rfl⟩
  refine ⟨s, hs, ?_⟩
  have h5 : ∀ x ∈ r.steps, x.gate_states.length = 5 := by
    rw [hsteps]
    exact rippleFrom_gates_length _ _ _ 0 0
  have hlen5 := stepsEventsFrom_length_five r.steps h5 0
  have hmsb : (match r.steps.getLast? with
      | some s2 => s2.bit_index
      | none => 0) = s.bit_index := by rw [hs]
  simp only [buildTimeline]
  rw [if_pos (show r.final_carry ≠ 0 by omega), List.getLast?_concat,
    hlen5, hmsb, hs, hfc1]

/-- C10 witness: for uint8_t 255 + 1 the terminal event points back at the
    last step, which owns bit index 7. -/
theorem C10_steps_nonempty_witness :
    (simulate_addition 255 1 uint8_t).toOption.map
        (fun r => (decide (r.steps ≠ []),
          ((buildTimeline r).getLast?).map TimelineEvent.bit_index))
      = some (true, some 7) := by
  obtain ⟨r, hr⟩ : ∃ r, simulate_addition 255 1 uint8_t = Except.ok r := ⟨_, rfl⟩
  have h10 := C10_steps_nonempty 255 1 uint8_t r
    (Or.inr ⟨8, rfl, by omega⟩) hr
  have hfc : r.final_carry = 1 := by
    rw [(simulate_ok_shape hr).2.2.2.2]
    decide
  obtain ⟨s, hs, hT⟩ := h10.2 hfc
  have hlen : r.steps.length = 8 := by
    rw [simulate_ok_steps_length hr, simWidth_fixed rfl]
  have h7 : (7 : Nat) < (simRipple 255 1 uint8_t).1.length := by
    rw [← (simulate_ok_shape hr).2.2.2.1]
    omega
  have hbit : s.bit_index = 7 := by
    have hg : r.steps.get? 7 = some s := by
      rw [← hs, List.getLast?_eq_get?, hlen]
    rw [(simulate_ok_shape hr).2.2.2.1, List.get?_eq_get h7,
      simRipple_steps_get 7 h7] at hg
    have hsf := (Option.some.inj hg).symm
    rw [hsf]
    rfl
  rw [hr]
  show some (decide (r.steps ≠ []),
      ((buildTimeline r).getLast?).map TimelineEvent.bit_index)
    = some (true, some 7)
  rw [hT]
  show some (decide (r.steps ≠ []), some s.bit_index) = some (true, some 7)
  rw [hbit, decide_eq_true h10.1]

end AdderSpec
